import Mathlib

/-!
Verification of the poker winner-determiner core (hand ranking and comparison).

The definitions below are a shallow embedding of the source functions
`rankHand` and `compareHands`:

* A `Card` has a rank and a suit.  In the source, `Rank` is the closed string
  union `'2' | '3' | … | '14'`, so the rank of every well-typed card lies in
  `[2, 14]`; that type-level invariant is carried here as a proof field.
* `rankHand` tallies the hand per rank (in ascending rank order `2 → 14`,
  matching the ascending integer-key iteration order of the source's record)
  and per suit, computes a boolean flag per category, selects the first true
  flag in fixed priority order (base score `1000 - 100·index`), then adds the
  category-specific tiebreak and kicker contributions.
* `compareHands` short-circuits a single-entry list to a "win via fold"
  result with sentinel score 10000, and otherwise evaluates every entry and
  sorts the results by descending score.  The source uses JavaScript
  `Array.prototype.sort` with comparator `(a, b) => b.score - a.score`, which
  is guaranteed stable; `sortByScoreDesc` below is the stable
  descending-by-score insertion sort, which computes the identical output.
-/

inductive Suit where
  | clubs
  | diamonds
  | hearts
  | spades
deriving DecidableEq

/-- A card: a rank paired with a suit.  The source `Rank` type is the closed
string union `'2' | … | '14'`, so validity of the rank is part of the type. -/
structure Card where
  rank : Nat
  suit : Suit
  rank_mem : 2 ≤ rank ∧ rank ≤ 14

inductive HandCategory where
  | royalFlush
  | straightFlush
  | fourOfAKind
  | fullHouse
  | flush
  | straight
  | threeOfAKind
  | twoPairs
  | pair
  | highCard
  | winViaFold
deriving DecidableEq

/-- A player identifier paired with its hand, or `none` in the fold case
(source type `PlayerWithHand`, whose `hand` field is nullable). -/
structure PlayerWithHand where
  id : String
  hand : Option (List Card)

/-- Source type `RankHandReponse` (sic): the evaluated result for one player. -/
structure RankHandReponse where
  player : PlayerWithHand
  category : HandCategory
  score : Nat

/-- The ranks of the cards of a hand, in hand order. -/
def ranksOf (hand : List Card) : List Nat := hand.map Card.rank

/-- The 13 rank keys in ascending order, `[2, 3, …, 14]`: JavaScript iterates
the integer-like keys of the source's `ranks` record in ascending order. -/
def keyRanks : List Nat := (List.range 13).map (fun i => i + 2)

/-- `Object.values(ranks)` after the tally loop: the count of each rank in the
hand, listed in ascending rank order. -/
def tallyValues (rs : List Nat) : List Nat := keyRanks.map (fun k => rs.count k)

/-- The four suit keys in the source's record insertion order. -/
def suitOrder : List Suit := [.clubs, .diamonds, .hearts, .spades]

/-- `Object.values(suits)` after the tally loop. -/
def suitTally (hand : List Card) : List Nat :=
  suitOrder.map (fun s => (hand.filter (fun c => decide (c.suit = s))).length)

/-- `Object.values(ranks).findIndex((index) => index === 1)`, as an `Option`
(the source yields `-1` when no rank has count 1; in that case the straight
slice is empty and the royal-flush position test fails, exactly as with
`none` here). -/
def firstCardIndex (rs : List Nat) : Option Nat :=
  (tallyValues rs).findIdx? (fun c => c == 1)

/-- Category flag: some rank occurs four times. -/
def fourFlag (rs : List Nat) : Bool := (tallyValues rs).any (fun c => c == 4)

/-- Category flag: `Object.values(ranks).filter(Boolean).length === 2`,
i.e. exactly two ranks have nonzero count. -/
def fullHouseFlag (rs : List Nat) : Bool :=
  ((tallyValues rs).filter (fun c => !(c == 0))).length == 2

/-- Category flag: some suit occurs five times. -/
def flushFlag (hand : List Card) : Bool := (suitTally hand).any (fun c => c == 5)

/-- Category flag: the five tally entries starting at the first count-1 entry
are all exactly 1 (`slice(firstCardIndex, firstCardIndex + 5)` then
`filter(=== 1).length === 5`). -/
def straightFlag (rs : List Nat) : Bool :=
  match firstCardIndex rs with
  | none => false
  | some i => (((tallyValues rs).drop i).take 5).countP (fun c => c == 1) == 5

/-- `firstCardIndex === TEN_CARD_POSITION` where `TEN_CARD_POSITION = 8`. -/
def royalPositionFlag (rs : List Nat) : Bool := firstCardIndex rs == some 8

/-- Category flag: some rank occurs three times. -/
def threeFlag (rs : List Nat) : Bool := (tallyValues rs).any (fun c => c == 3)

/-- Category flag: exactly two ranks occur twice. -/
def twoPairsFlag (rs : List Nat) : Bool :=
  ((tallyValues rs).filter (fun c => c == 2)).length == 2

/-- Category flag: exactly one rank occurs twice. -/
def pairFlag (rs : List Nat) : Bool :=
  ((tallyValues rs).filter (fun c => c == 2)).length == 1

/-- The source's `categoryMap` as an ordered association list, after the two
in-place updates `straight flush := flush && straight` and
`royal flush := straight flush && firstCardIndex === 8`. -/
def buildCategoryList (f4 ff fl st t3 tp pr i8 : Bool) : List (HandCategory × Bool) :=
  [(.royalFlush, (fl && st) && i8),
   (.straightFlush, fl && st),
   (.fourOfAKind, f4),
   (.fullHouse, ff),
   (.flush, fl),
   (.straight, st),
   (.threeOfAKind, t3),
   (.twoPairs, tp),
   (.pair, pr),
   (.highCard, true),
   (.winViaFold, false)]

/-- The source walks `Object.keys(categoryMap)` with `every`, assigning
`score = 1000 - index*100` and `category = key` at each step and stopping at
the first true flag; if no flag were true the last assignment would stand.
The `[]` case is unreachable for the nonempty list built above. -/
def selectLoop : Nat → List (HandCategory × Bool) → HandCategory × Nat
  | _, [] => (.highCard, 0)
  | idx, (c, b) :: rest =>
    if b then (c, 1000 - idx * 100)
    else
      match rest with
      | [] => (c, 1000 - idx * 100)
      | _ :: _ => selectLoop (idx + 1) rest

/-- Priority selection over the category flags. -/
def selectCategory (f4 ff fl st t3 tp pr i8 : Bool) : HandCategory × Nat :=
  selectLoop 0 (buildCategoryList f4 ff fl st t3 tp pr i8)

/-- The category selected for a hand, with its base score. -/
def selectedOf (hand : List Card) : HandCategory × Nat :=
  selectCategory (fourFlag (ranksOf hand)) (fullHouseFlag (ranksOf hand))
    (flushFlag hand) (straightFlag (ranksOf hand)) (threeFlag (ranksOf hand))
    (twoPairsFlag (ranksOf hand)) (pairFlag (ranksOf hand))
    (royalPositionFlag (ranksOf hand))

/-- 0-based index of a category in the fixed priority order. -/
def categoryIndex : HandCategory → Nat
  | .royalFlush => 0
  | .straightFlush => 1
  | .fourOfAKind => 2
  | .fullHouse => 3
  | .flush => 4
  | .straight => 5
  | .threeOfAKind => 6
  | .twoPairs => 7
  | .pair => 8
  | .highCard => 9
  | .winViaFold => 10

/-- The rank keys whose count is 4, ascending (`Object.keys(ranks).filter`). -/
def quadKeys (rs : List Nat) : List Nat := keyRanks.filter (fun k => rs.count k == 4)

/-- The rank keys whose count is 3, ascending. -/
def tripleKeys (rs : List Nat) : List Nat := keyRanks.filter (fun k => rs.count k == 3)

/-- The rank keys whose count is 2, ascending. -/
def pairKeys (rs : List Nat) : List Nat := keyRanks.filter (fun k => rs.count k == 2)

/-- The rank keys whose count is 1, ascending. -/
def singleKeys (rs : List Nat) : List Nat := keyRanks.filter (fun k => rs.count k == 1)

/-- Decimal-digit count of a rank key.  Every key lies in `[2, 14]`, so a key
has one decimal digit below 10 and two otherwise. -/
def keyDigits (n : Nat) : Nat := if n < 10 then 1 else 2

/-- The source's pair tiebreak reduces the count-2 keys (decimal strings) with
string concatenation and then applies `parseInt`.  Appending the decimal
representation of `b` (for `b < 100`, i.e. every key) after that of `a`
yields `a * 10 ^ keyDigits b + b`, which this fold computes.  When the list
is a singleton `[p]` — which the pair flag guarantees at the only call site —
this is just `p`.  (On an empty list the source's `reduce` would throw; that
point is unreachable, and this model returns 0 there.) -/
def parseJoin : List Nat → Nat
  | [] => 0
  | k :: ks => ks.foldl (fun a b => a * 10 ^ keyDigits b + b) k

/-- `Math.max(...)` over the count-1 rank keys.  The source's `Math.max` of an
empty spread is `-Infinity`; the kicker is only added for categories for which
the count-1 key list is provably nonempty, where this fold computes the
maximum (all keys are ≥ 2 > 0). -/
def kickerValue (rs : List Nat) : Nat := (singleKeys rs).foldl (fun a b => max a b) 0

/-- The category-specific tiebreak added to the base score.  For
`fourOfAKind`/`threeOfAKind`/`twoPairs` the source indexes into the filtered
key list (`keys[0]`, `keys[1]`); those indexings are in range whenever the
corresponding flag is set, which is the only way the branch is reached. -/
def tiebreakValue (rs : List Nat) : HandCategory → Nat
  | .royalFlush => rs.sum
  | .straightFlush => rs.sum
  | .fullHouse => rs.sum
  | .flush => rs.sum
  | .straight => rs.sum
  | .fourOfAKind => (quadKeys rs).headD 0 * 4
  | .threeOfAKind => (tripleKeys rs).headD 0 * 3
  | .twoPairs => (pairKeys rs).getD 0 0 * 2 + (pairKeys rs).getD 1 0 * 2
  | .pair => parseJoin (pairKeys rs) * 2
  | .highCard => 0
  | .winViaFold => 0

/-- The categories for which the kicker is added. -/
def kickerCategory : HandCategory → Bool
  | .twoPairs => true
  | .pair => true
  | .highCard => true
  | _ => false

/-- The body of `rankHand` once the hand is known to be present. -/
def rankHandCore (p : PlayerWithHand) (hand : List Card) : RankHandReponse :=
  { player := p
    category := (selectedOf hand).1
    score := (selectedOf hand).2 + tiebreakValue (ranksOf hand) (selectedOf hand).1 +
      (if kickerCategory (selectedOf hand).1 then kickerValue (ranksOf hand) else 0) }

/-- Source `rankHand`: throws an `InternalServerErrorException` when the hand
is `null`, else evaluates the hand. -/
def rankHand (p : PlayerWithHand) : Except String RankHandReponse :=
  match p.hand with
  | none => .error "Attempting to rank a non-existant hand!"
  | some hand => .ok (rankHandCore p hand)

/-- `players.map((player) => rankHand(player))`: the first throw (if any)
propagates. -/
def rankAll : List PlayerWithHand → Except String (List RankHandReponse)
  | [] => .ok []
  | p :: ps =>
    match rankHand p with
    | .error e => .error e
    | .ok r =>
      match rankAll ps with
      | .error e => .error e
      | .ok rest => .ok (r :: rest)

/-- Stable insertion step for descending-by-score order: the new element goes
before the first strictly lower score and after every earlier element of
equal or higher score. -/
def scoreInsert (x : RankHandReponse) : List RankHandReponse → List RankHandReponse
  | [] => [x]
  | y :: ys => if y.score ≤ x.score then x :: y :: ys else y :: scoreInsert x ys

/-- Stable sort by strictly descending score, the behaviour of the source's
`.sort((handA, handB) => handB.score - handA.score)` (JavaScript `sort` is
stable). -/
def sortByScoreDesc (l : List RankHandReponse) : List RankHandReponse :=
  l.foldr scoreInsert []

/-- Source `compareHands`: a single-entry list short-circuits to a
"win via fold" result with sentinel score 10000; otherwise every entry is
evaluated and the results are sorted by descending score. -/
def compareHands : List PlayerWithHand → Except String (List RankHandReponse)
  | [p] => .ok [{ player := p, category := .winViaFold, score := 10000 }]
  | players =>
    match rankAll players with
    | .error e => .error e
    | .ok ranked => .ok (sortByScoreDesc ranked)

/-- Card constructor with the range side condition discharged by `decide`. -/
def mkCard (r : Nat) (s : Suit) (h : 2 ≤ r ∧ r ≤ 14 := by decide) : Card := ⟨r, s, h⟩

/-- The worked example Hand1 from the source doc comment:
4♣, 4♦, 7♥, 2♣, 9♠. -/
def exampleHand1 : List Card :=
  [mkCard 4 .clubs, mkCard 4 .diamonds, mkCard 7 .hearts, mkCard 2 .clubs, mkCard 9 .spades]

/-- The worked example Hand2 from the source doc comment:
4♠, 4♥, 7♥, 2♣, 11♠. -/
def exampleHand2 : List Card :=
  [mkCard 4 .spades, mkCard 4 .hearts, mkCard 7 .hearts, mkCard 2 .clubs, mkCard 11 .spades]

/-- A royal flush in hearts. -/
def exampleRoyal : List Card :=
  [mkCard 10 .hearts, mkCard 11 .hearts, mkCard 12 .hearts, mkCard 13 .hearts, mkCard 14 .hearts]

/-- A would-be "wheel" hand: ranks 14, 2, 3, 4, 5 (mixed suits). -/
def exampleWheel : List Card :=
  [mkCard 14 .spades, mkCard 2 .clubs, mkCard 3 .clubs, mkCard 4 .clubs, mkCard 5 .clubs]

/-- Four nines and a five. -/
def exampleQuad : List Card :=
  [mkCard 9 .spades, mkCard 9 .clubs, mkCard 9 .hearts, mkCard 9 .diamonds, mkCard 5 .clubs]

/-- Players used in concrete witnesses. -/
def playerA : PlayerWithHand := { id := "a", hand := some exampleHand1 }

def playerQuad : PlayerWithHand := { id := "q", hand := some exampleQuad }

def playerRoyal : PlayerWithHand := { id := "r", hand := some exampleRoyal }

def playerB : PlayerWithHand := { id := "b", hand := some exampleHand2 }

def playerNoHand : PlayerWithHand := { id := "c", hand := none }

/-- Straight characterization in the spec's words: taking the lowest rank
with tally count 1 as the anchor `a`, the five consecutive ranks
`a, a+1, …, a+4` each have tally count exactly 1.  (Definition written from
the spec for the refinement claim C7; `straightFlag` above is written from
the source.) -/
def specStraight (rs : List Nat) : Prop :=
  ∃ a, 2 ≤ a ∧ a ≤ 14 ∧
    (∀ b, 2 ≤ b → b < a → rs.count b ≠ 1) ∧
    (∀ j, j ≤ 4 → rs.count (a + j) = 1)

/-! ### Sorting: permutation, descending order, stability -/

theorem scoreInsert_perm (x : RankHandReponse) (l : List RankHandReponse) :
    (scoreInsert x l).Perm (x :: l) := by
  induction l with
  | nil => exact List.Perm.refl _
  | cons y ys ih =>
    simp only [scoreInsert]
    split
    · exact List.Perm.refl _
    · exact (List.Perm.cons y ih).trans (List.Perm.swap x y ys)

theorem sortByScoreDesc_perm (l : List RankHandReponse) : (sortByScoreDesc l).Perm l := by
  induction l with
  | nil => exact List.Perm.refl _
  | cons x xs ih =>
    exact (scoreInsert_perm x (sortByScoreDesc xs)).trans (List.Perm.cons x ih)

theorem scoreInsert_pairwise (x : RankHandReponse) (l : List RankHandReponse)
    (hl : l.Pairwise (fun a b => b.score ≤ a.score)) :
    (scoreInsert x l).Pairwise (fun a b => b.score ≤ a.score) := by
  induction l with
  | nil => simp [scoreInsert]
  | cons y ys ih =>
    rw [List.pairwise_cons] at hl
    obtain ⟨hy, hys⟩ := hl
    simp only [scoreInsert]
    split
    · rename_i hcond
      refine List.pairwise_cons.mpr ⟨?_, List.pairwise_cons.mpr ⟨hy, hys⟩⟩
      intro z hz
      rcases List.mem_cons.mp hz with rfl | hz
      · exact hcond
      · exact le_trans (hy z hz) hcond
    · rename_i hcond
      refine List.pairwise_cons.mpr ⟨?_, ih hys⟩
      intro z hz
      have hz' := (scoreInsert_perm x ys).mem_iff.mp hz
      rcases List.mem_cons.mp hz' with rfl | hz'
      · omega
      · exact hy z hz'

theorem sortByScoreDesc_pairwise (l : List RankHandReponse) :
    (sortByScoreDesc l).Pairwise (fun a b => b.score ≤ a.score) := by
  induction l with
  | nil => simp [sortByScoreDesc]
  | cons x xs ih => exact scoreInsert_pairwise x (sortByScoreDesc xs) ih

theorem scoreInsert_filter (x : RankHandReponse) (l : List RankHandReponse) (s : Nat) :
    (scoreInsert x l).filter (fun h => h.score == s) =
      (x :: l).filter (fun h => h.score == s) := by
  induction l with
  | nil => rfl
  | cons y ys ih =>
    simp only [scoreInsert]
    split
    · rfl
    · rename_i hcond
      by_cases hx : x.score = s
      · have hyne : ¬ y.score = s := by omega
        simp [List.filter_cons, beq_iff_eq, hx, hyne, ih]
      · simp [List.filter_cons, beq_iff_eq, hx, ih]

theorem sortByScoreDesc_filter (l : List RankHandReponse) (s : Nat) :
    (sortByScoreDesc l).filter (fun h => h.score == s) =
      l.filter (fun h => h.score == s) := by
  induction l with
  | nil => rfl
  | cons x xs ih =>
    show (scoreInsert x (sortByScoreDesc xs)).filter (fun h => h.score == s) = _
    rw [scoreInsert_filter x (sortByScoreDesc xs) s, List.filter_cons, List.filter_cons]
    split
    · rw [ih]
    · exact ih

/-! ### Evaluation of a list of players -/

theorem rankAll_ok (players : List PlayerWithHand)
    (h : ∀ p ∈ players, p.hand ≠ none) :
    ∃ ranked, rankAll players = .ok ranked ∧
      ranked.map RankHandReponse.player = players := by
  induction players with
  | nil => exact ⟨[], rfl, rfl⟩
  | cons p ps ih =>
    obtain ⟨hd, hp⟩ : ∃ hd, p.hand = some hd := by
      cases hh : p.hand with
      | none => exact absurd hh (h p (List.mem_cons_self p ps))
      | some hd => exact ⟨hd, rfl⟩
    obtain ⟨ranked, hr, hm⟩ := ih (fun q hq => h q (List.mem_cons_of_mem p hq))
    refine ⟨rankHandCore p hd :: ranked, ?_, ?_⟩
    · simp only [rankAll, rankHand, hp, hr]
    · rw [List.map_cons, hm]
      rfl

theorem rankAll_error_iff (players : List PlayerWithHand) :
    (∃ e, rankAll players = .error e) ↔ ∃ p ∈ players, p.hand = none := by
  induction players with
  | nil => simp [rankAll]
  | cons p ps ih =>
    cases hh : p.hand with
    | none =>
      simp only [rankAll, rankHand, hh]
      exact ⟨fun _ => ⟨p, List.mem_cons_self p ps, hh⟩, fun _ => ⟨_, rfl⟩⟩
    | some hd =>
      simp only [rankAll, rankHand, hh]
      cases hr : rankAll ps with
      | error e =>
        have hps := ih.mp ⟨e, hr⟩
        exact ⟨fun _ => ⟨hps.choose, List.mem_cons_of_mem p hps.choose_spec.1,
            hps.choose_spec.2⟩,
          fun _ => ⟨e, rfl⟩⟩
      | ok rest =>
        constructor
        · rintro ⟨e, he⟩
          exact absurd he (by simp)
        · rintro ⟨q, hq, hqnone⟩
          rcases List.mem_cons.mp hq with rfl | hq
          · exact absurd hh (by rw [hqnone]; simp)
          · obtain ⟨e, he⟩ := ih.mpr ⟨q, hq, hqnone⟩
            rw [hr] at he
            exact absurd he (by simp)

theorem rankAll_error_msg (players : List PlayerWithHand) (e : String)
    (h : rankAll players = .error e) : e = "Attempting to rank a non-existant hand!" := by
  induction players with
  | nil => exact absurd h (by simp [rankAll])
  | cons p ps ih =>
    cases hh : p.hand with
    | none =>
      simp only [rankAll, rankHand, hh] at h
      exact (Except.error.inj h).symm
    | some hd =>
      simp only [rankAll, rankHand, hh] at h
      cases hr : rankAll ps with
      | error e' =>
        rw [hr] at h
        exact ih (Except.error.inj h ▸ hr)
      | ok rest =>
        rw [hr] at h
        exact absurd h (by simp)

/-! ### The priority walk: decidable facts over the eight primitive flags -/

/-- The walk always stops at `highCard` or earlier, the base score is
`1000 - 100·index` of the selected category, and if no primitive flag is true
the fallback `highCard` is selected. -/
theorem selectCategory_base (f4 ff fl st t3 tp pr i8 : Bool) :
    (selectCategory f4 ff fl st t3 tp pr i8).1 ≠ .winViaFold ∧
    categoryIndex (selectCategory f4 ff fl st t3 tp pr i8).1 ≤ 9 ∧
    (selectCategory f4 ff fl st t3 tp pr i8).2 =
      1000 - 100 * categoryIndex (selectCategory f4 ff fl st t3 tp pr i8).1 ∧
    ((f4 = false ∧ ff = false ∧ fl = false ∧ st = false ∧ t3 = false ∧
        tp = false ∧ pr = false) →
      (selectCategory f4 ff fl st t3 tp pr i8).1 = .highCard) := by
  cases f4 <;> cases ff <;> cases fl <;> cases st <;> cases t3 <;> cases tp <;>
    cases pr <;> cases i8 <;> decide

/-- If the straight flag is false and the four-of-a-kind flag is true, the
walk selects four of a kind with base score 800 (royal/straight flush are
masked because both require the straight flag). -/
theorem selectCategory_four (ff fl t3 tp pr i8 : Bool) :
    selectCategory true ff fl false t3 tp pr i8 = (.fourOfAKind, 800) := by
  cases ff <;> cases fl <;> cases t3 <;> cases tp <;> cases pr <;> cases i8 <;> decide

/-- Inversion: selecting `pair` forces the pair flag true, every
higher-priority flag false, and base score 200. -/
theorem selectCategory_pair_inv (f4 ff fl st t3 tp pr i8 : Bool)
    (h : (selectCategory f4 ff fl st t3 tp pr i8).1 = .pair) :
    pr = true ∧ f4 = false ∧ ff = false ∧ (fl && st) = false ∧ t3 = false ∧
      tp = false ∧ (selectCategory f4 ff fl st t3 tp pr i8).2 = 200 := by
  revert h
  cases f4 <;> cases ff <;> cases fl <;> cases st <;> cases t3 <;> cases tp <;>
    cases pr <;> cases i8 <;> decide

/-- Inversion: selecting `twoPairs` forces the two-pairs flag true and every
higher-priority flag false. -/
theorem selectCategory_twoPairs_inv (f4 ff fl st t3 tp pr i8 : Bool)
    (h : (selectCategory f4 ff fl st t3 tp pr i8).1 = .twoPairs) :
    tp = true ∧ f4 = false ∧ ff = false ∧ (fl && st) = false ∧ t3 = false := by
  revert h
  cases f4 <;> cases ff <;> cases fl <;> cases st <;> cases t3 <;> cases tp <;>
    cases pr <;> cases i8 <;> decide

/-- Inversion: selecting `highCard` forces every primitive flag false. -/
theorem selectCategory_high_inv (f4 ff fl st t3 tp pr i8 : Bool)
    (h : (selectCategory f4 ff fl st t3 tp pr i8).1 = .highCard) :
    f4 = false ∧ ff = false ∧ st = false ∧ t3 = false ∧ tp = false ∧
      pr = false := by
  revert h
  cases f4 <;> cases ff <;> cases fl <;> cases st <;> cases t3 <;> cases tp <;>
    cases pr <;> cases i8 <;> decide

/-- Inversion: selecting `royalFlush` forces flush, straight and the
ten-position flag all true, and base score 1000. -/
theorem selectCategory_royal_inv (f4 ff fl st t3 tp pr i8 : Bool)
    (h : (selectCategory f4 ff fl st t3 tp pr i8).1 = .royalFlush) :
    fl = true ∧ st = true ∧ i8 = true ∧
      (selectCategory f4 ff fl st t3 tp pr i8).2 = 1000 := by
  revert h
  cases f4 <;> cases ff <;> cases fl <;> cases st <;> cases t3 <;> cases tp <;>
    cases pr <;> cases i8 <;> decide

/-! ### Claims C2 and C3 -/

/-- Claim C2: `compareHands` on a one-element list returns a single
`RankHandReponse` with category "win via fold" and score 10000, without any
per-card evaluation and without error, whatever the player's hand holds —
including no hand at all. -/
theorem c2_single_player_wins_via_fold (p : PlayerWithHand) :
    compareHands [p] = .ok [{ player := p, category := .winViaFold, score := 10000 }] := rfl

/-- Claim C3: for every hand, the evaluation assigns exactly one category,
that category is never "win via fold" (its priority index is at most 9, the
index of the always-eligible fallback "high card"), the fallback is selected
whenever no other flag is true, and the base score of the selected category
is `1000 - 100 ·` its 0-based index in the fixed priority order. -/
theorem c3_category_total_base_score (p : PlayerWithHand) (hand : List Card) :
    (rankHandCore p hand).category = (selectedOf hand).1 ∧
    (selectedOf hand).1 ≠ .winViaFold ∧
    categoryIndex (selectedOf hand).1 ≤ 9 ∧
    (selectedOf hand).2 = 1000 - 100 * categoryIndex (selectedOf hand).1 ∧
    ((fourFlag (ranksOf hand) = false ∧ fullHouseFlag (ranksOf hand) = false ∧
        flushFlag hand = false ∧ straightFlag (ranksOf hand) = false ∧
        threeFlag (ranksOf hand) = false ∧ twoPairsFlag (ranksOf hand) = false ∧
        pairFlag (ranksOf hand) = false) →
      (selectedOf hand).1 = .highCard) := by
  obtain ⟨h1, h2, h3, h4⟩ :=
    selectCategory_base (fourFlag (ranksOf hand)) (fullHouseFlag (ranksOf hand))
      (flushFlag hand) (straightFlag (ranksOf hand)) (threeFlag (ranksOf hand))
      (twoPairsFlag (ranksOf hand)) (pairFlag (ranksOf hand))
      (royalPositionFlag (ranksOf hand))
  exact ⟨rfl, h1, h2, h3, fun hf => h4 ⟨hf.1, hf.2.1, hf.2.2.1, hf.2.2.2.1,
    hf.2.2.2.2.1, hf.2.2.2.2.2.1, hf.2.2.2.2.2.2⟩⟩

/-! ### Claims C1 and C8 -/

/-- Claim C1: for two or more players, all with hands present, `compareHands`
returns one `RankHandReponse` per input player (the evaluated list `ranked`
carries the players in input order, and the output is a permutation of it),
sorted by descending score, with exactly-equal scores kept in input-relative
order (the filter to any fixed score value is unchanged by the sort). -/
theorem c1_compare_sorted_stable (players : List PlayerWithHand)
    (h2 : 2 ≤ players.length) (hall : ∀ p ∈ players, p.hand ≠ none) :
    ∃ ranked, rankAll players = .ok ranked ∧
      ranked.map RankHandReponse.player = players ∧
      compareHands players = .ok (sortByScoreDesc ranked) ∧
      (sortByScoreDesc ranked).Perm ranked ∧
      (sortByScoreDesc ranked).Pairwise (fun a b => b.score ≤ a.score) ∧
      ∀ s : Nat, (sortByScoreDesc ranked).filter (fun h => h.score == s) =
        ranked.filter (fun h => h.score == s) := by
  obtain ⟨ranked, hr, hm⟩ := rankAll_ok players hall
  refine ⟨ranked, hr, hm, ?_, sortByScoreDesc_perm ranked,
    sortByScoreDesc_pairwise ranked, fun s => sortByScoreDesc_filter ranked s⟩
  rcases players with _ | ⟨p1, _ | ⟨p2, rest⟩⟩
  · simp at h2
  · simp at h2
  · have heq : compareHands (p1 :: p2 :: rest) =
        match rankAll (p1 :: p2 :: rest) with
        | .error e => .error e
        | .ok ranked => .ok (sortByScoreDesc ranked) := rfl
    rw [heq, hr]

/-- Claim C1 witness: the two worked-example players. -/
theorem c1_witness :
    ∃ ranked, rankAll [playerA, playerB] = .ok ranked ∧
      ranked.map RankHandReponse.player = [playerA, playerB] ∧
      compareHands [playerA, playerB] = .ok (sortByScoreDesc ranked) ∧
      (sortByScoreDesc ranked).Perm ranked ∧
      (sortByScoreDesc ranked).Pairwise (fun a b => b.score ≤ a.score) ∧
      ∀ s : Nat, (sortByScoreDesc ranked).filter (fun h => h.score == s) =
        ranked.filter (fun h => h.score == s) :=
  c1_compare_sorted_stable [playerA, playerB] (by decide)
    (by intro p hp
        rcases List.mem_cons.mp hp with rfl | hp
        · simp [playerA]
        · rcases List.mem_cons.mp hp with rfl | hp
          · simp [playerB]
          · simp at hp)

/-- Claim C8: the only error the core raises is the internal-invariant
"missing hand" error: `rankHand` errors exactly on an absent hand (and then
with that one message), and `compareHands` on two or more entries errors
exactly when some entry's hand is absent, always with that same message. -/
theorem c8_single_error_kind (players : List PlayerWithHand) (h2 : 2 ≤ players.length) :
    (∀ p : PlayerWithHand, (∃ e, rankHand p = .error e) ↔ p.hand = none) ∧
    (∀ p : PlayerWithHand, p.hand = none →
      rankHand p = .error "Attempting to rank a non-existant hand!") ∧
    ((∃ e, compareHands players = .error e) ↔ ∃ p ∈ players, p.hand = none) ∧
    (∀ e, compareHands players = .error e →
      e = "Attempting to rank a non-existant hand!") := by
  rcases players with _ | ⟨p1, _ | ⟨p2, rest⟩⟩
  · simp at h2
  · simp at h2
  · have heq : compareHands (p1 :: p2 :: rest) =
        match rankAll (p1 :: p2 :: rest) with
        | .error e => .error e
        | .ok ranked => .ok (sortByScoreDesc ranked) := rfl
    refine ⟨?_, ?_, ?_, ?_⟩
    · intro p
      constructor
      · rintro ⟨e, he⟩
        cases hh : p.hand with
        | none => rfl
        | some hd =>
          simp only [rankHand, hh] at he
          exact absurd he (by simp)
      · intro hh
        exact ⟨"Attempting to rank a non-existant hand!", by simp [rankHand, hh]⟩
    · intro p hh
      simp [rankHand, hh]
    · rw [heq]
      cases hr : rankAll (p1 :: p2 :: rest) with
      | error e =>
        exact ⟨fun _ => (rankAll_error_iff _).mp ⟨e, hr⟩, fun _ => ⟨e, rfl⟩⟩
      | ok ranked =>
        constructor
        · rintro ⟨e, he⟩
          exact absurd he (by simp)
        · intro hsome
          obtain ⟨e, he⟩ := (rankAll_error_iff _).mpr hsome
          rw [hr] at he
          exact absurd he (by simp)
    · intro e he
      rw [heq] at he
      cases hr : rankAll (p1 :: p2 :: rest) with
      | error e' =>
        rw [hr] at he
        exact rankAll_error_msg _ _ (Except.error.inj he ▸ hr)
      | ok ranked =>
        rw [hr] at he
        exact absurd he (by simp)

/-- Claim C8 witness: a two-player list with one missing hand errors, and a
two-player list with both hands present satisfies the same equivalences. -/
theorem c8_witness :
    (∀ p : PlayerWithHand, (∃ e, rankHand p = .error e) ↔ p.hand = none) ∧
    (∀ p : PlayerWithHand, p.hand = none →
      rankHand p = .error "Attempting to rank a non-existant hand!") ∧
    ((∃ e, compareHands [playerNoHand, playerA] = .error e) ↔
      ∃ p ∈ [playerNoHand, playerA], p.hand = none) ∧
    (∀ e, compareHands [playerNoHand, playerA] = .error e →
      e = "Attempting to rank a non-existant hand!") :=
  c8_single_error_kind [playerNoHand, playerA] (by decide)

/-! ### Arithmetic of the rank tally -/

theorem keyRanks_eq : keyRanks = [2, 3, 4, 5, 6, 7, 8, 9, 10, 11, 12, 13, 14] := by decide

theorem mem_keyRanks_iff (k : Nat) : k ∈ keyRanks ↔ 2 ≤ k ∧ k ≤ 14 := by
  rw [keyRanks_eq]
  simp only [List.mem_cons, List.not_mem_nil, or_false]
  omega

theorem ranksOf_valid (hand : List Card) : ∀ x ∈ ranksOf hand, 2 ≤ x ∧ x ≤ 14 := by
  intro x hx
  obtain ⟨c, _, rfl⟩ := List.mem_map.mp hx
  exact c.rank_mem

theorem listSum_map_add (l : List Nat) (f g : Nat → Nat) :
    (l.map (fun a => f a + g a)).sum = (l.map f).sum + (l.map g).sum := by
  induction l with
  | nil => rfl
  | cons a l ih =>
    simp only [List.map_cons, List.sum_cons, ih]
    omega

theorem indicator_sum_one : ∀ x, x < 15 → 2 ≤ x →
    (keyRanks.map (fun k => if x == k then 1 else 0)).sum = 1 := by
  decide

theorem indicator_sum_weighted : ∀ x, x < 15 → 2 ≤ x →
    (keyRanks.map (fun k => k * (if x == k then 1 else 0))).sum = x := by
  decide

theorem tally_cons (x : Nat) (rs : List Nat) :
    tallyValues (x :: rs) =
      keyRanks.map (fun k => rs.count k + if x == k then 1 else 0) := by
  unfold tallyValues
  exact List.map_congr_left (fun k _ => List.count_cons k x rs)

/-- The tally of a hand whose ranks are all in range sums to the hand size. -/
theorem tally_sum (rs : List Nat) (hv : ∀ x ∈ rs, 2 ≤ x ∧ x ≤ 14) :
    (tallyValues rs).sum = rs.length := by
  induction rs with
  | nil => rfl
  | cons x rs ih =>
    have hx := hv x (List.mem_cons_self x rs)
    have hrs := ih (fun y hy => hv y (List.mem_cons_of_mem x hy))
    rw [tally_cons, listSum_map_add]
    unfold tallyValues at hrs
    rw [hrs, indicator_sum_one x (by omega) hx.1]
    simp

/-- The rank-weighted tally of an in-range hand sums to the sum of the ranks. -/
theorem tally_weighted_sum (rs : List Nat) (hv : ∀ x ∈ rs, 2 ≤ x ∧ x ≤ 14) :
    (keyRanks.map (fun k => k * rs.count k)).sum = rs.sum := by
  induction rs with
  | nil => rfl
  | cons x rs ih =>
    have hx := hv x (List.mem_cons_self x rs)
    have hrs := ih (fun y hy => hv y (List.mem_cons_of_mem x hy))
    have hcongr : keyRanks.map (fun k => k * (x :: rs).count k) =
        keyRanks.map (fun k => k * rs.count k + k * (if x == k then 1 else 0)) := by
      refine List.map_congr_left (fun k _ => ?_)
      rw [List.count_cons, Nat.mul_add]
    rw [hcongr, listSum_map_add, hrs, indicator_sum_weighted x (by omega) hx.1,
      List.sum_cons]
    omega

/-- Counts of two distinct values are jointly bounded by the list length. -/
theorem count_add_count_le_length (rs : List Nat) (r k : Nat) (hne : k ≠ r) :
    rs.count k + rs.count r ≤ rs.length := by
  have hlen := List.length_eq_countP_add_countP (fun a => a == r) rs
  have hmono : rs.countP (fun a => a == k) ≤
      rs.countP (fun a => decide ¬((a == r) = true)) := by
    refine List.countP_mono_left (fun a _ hak => ?_)
    simp only [beq_iff_eq] at hak
    simp [hak, hne]
  rw [List.count_eq_countP k rs, List.count_eq_countP r rs]
  omega

theorem countP_one_eq_zero_of_sum_zero (l : List Nat) (h : l.sum = 0) :
    l.countP (fun c => c == 1) = 0 := by
  induction l with
  | nil => rfl
  | cons a l ih =>
    rw [List.sum_cons] at h
    rw [List.countP_cons]
    have ha : a = 0 := by omega
    rw [ih (by omega)]
    simp [ha]

theorem countP_one_eq_one_of_sum_one (l : List Nat) (h : l.sum = 1) :
    l.countP (fun c => c == 1) = 1 := by
  induction l with
  | nil => simp at h
  | cons a l ih =>
    rw [List.sum_cons] at h
    rw [List.countP_cons]
    rcases Nat.eq_zero_or_pos a with ha | ha
    · rw [ih (by omega)]
      simp [ha]
    · have ha1 : a = 1 := by omega
      rw [countP_one_eq_zero_of_sum_zero l (by omega)]
      simp [ha1]

/-- A tally that contains a 4 and sums to 5 has exactly one count-1 entry. -/
theorem countP_one_of_four_mem (l : List Nat) (h4 : 4 ∈ l) (h : l.sum = 5) :
    l.countP (fun c => c == 1) = 1 := by
  have hperm := List.perm_cons_erase h4
  have hsum : (l.erase 4).sum = 1 := by
    have hs := hperm.sum_eq
    rw [List.sum_cons] at hs
    omega
  rw [List.Perm.countP_eq (fun c => c == 1) hperm, List.countP_cons,
    countP_one_eq_one_of_sum_one _ hsum]
  simp

/-- If fewer than five tally entries are 1, no straight is recognized. -/
theorem straightFlag_false_of_few_ones (rs : List Nat)
    (h : (tallyValues rs).countP (fun c => c == 1) < 5) : straightFlag rs = false := by
  cases hf : firstCardIndex rs with
  | none => simp [straightFlag, hf]
  | some i =>
    have hsub : List.Sublist (((tallyValues rs).drop i).take 5) (tallyValues rs) :=
      (List.take_sublist 5 _).trans (List.drop_sublist i _)
    have hle : (((tallyValues rs).drop i).take 5).countP (fun c => c == 1) ≤
        (tallyValues rs).countP (fun c => c == 1) :=
      List.Sublist.countP_le (fun c => c == 1) hsub
    simp only [straightFlag, hf]
    rw [beq_eq_false_iff_ne]
    omega

/-- A filter over a duplicate-free list with a unique satisfying element is
that singleton. -/
theorem filter_eq_singleton_of_uniq (l : List Nat) (p : Nat → Bool) (r : Nat)
    (hnd : l.Nodup) (hr : r ∈ l) (hpr : p r = true)
    (huniq : ∀ k ∈ l, p k = true → k = r) : l.filter p = [r] := by
  induction l with
  | nil => simp at hr
  | cons a l ih =>
    rw [List.nodup_cons] at hnd
    rcases List.mem_cons.mp hr with rfl | hr
    · rw [List.filter_cons, if_pos hpr]
      have hnil : l.filter p = [] := by
        rw [List.filter_eq_nil_iff]
        intro k hk hpk
        exact hnd.1 ((huniq k (List.mem_cons_of_mem r hk) hpk) ▸ hk)
      rw [hnil]
    · have hne : a ≠ r := fun h => hnd.1 (h ▸ hr)
      have hpa : p a = false := by
        cases hpa : p a
        · rfl
        · exact absurd (huniq a (List.mem_cons_self a l) hpa) hne
      rw [List.filter_cons, if_neg (by simp [hpa])]
      exact ih hnd.2 hr (fun k hk hpk => huniq k (List.mem_cons_of_mem a hk) hpk)

theorem keyRanks_nodup : keyRanks.Nodup := by decide

theorem fourFlag_true_of_quad (rs : List Nat) (r : Nat)
    (hv : ∀ x ∈ rs, 2 ≤ x ∧ x ≤ 14) (hq : rs.count r = 4) : fourFlag rs = true := by
  unfold fourFlag tallyValues
  rw [List.any_eq_true]
  have hrmem : r ∈ keyRanks :=
    (mem_keyRanks_iff r).mpr (hv r (List.count_pos_iff.mp (by omega)))
  exact ⟨rs.count r, List.mem_map_of_mem _ hrmem, by simp [hq]⟩

theorem quadKeys_eq_singleton (rs : List Nat) (r : Nat)
    (hv : ∀ x ∈ rs, 2 ≤ x ∧ x ≤ 14) (hlen : rs.length = 5)
    (hq : rs.count r = 4) : quadKeys rs = [r] := by
  have hrmem : r ∈ keyRanks :=
    (mem_keyRanks_iff r).mpr (hv r (List.count_pos_iff.mp (by omega)))
  refine filter_eq_singleton_of_uniq keyRanks _ r keyRanks_nodup hrmem (by simp [hq]) ?_
  intro k hk hpk
  simp only [beq_iff_eq] at hpk
  by_contra hne
  have hle := count_add_count_le_length rs r k hne
  omega

/-- Claim C4: a hand in which some rank occurs exactly four times is ranked
"four of a kind" (the simultaneously-true full-house flag is masked by
priority, and the straight flag is provably false so royal/straight flush
cannot preempt) with score `800 + 4·r`. -/
theorem c4_four_of_a_kind (pl : PlayerWithHand) (hand : List Card) (r : Nat)
    (hp : pl.hand = some hand) (hlen : hand.length = 5)
    (hq : (ranksOf hand).count r = 4) :
    rankHand pl = .ok { player := pl, category := .fourOfAKind, score := 800 + 4 * r } := by
  have hv := ranksOf_valid hand
  have hrlen : (ranksOf hand).length = 5 := by simpa [ranksOf] using hlen
  have hsum : (tallyValues (ranksOf hand)).sum = 5 := by rw [tally_sum _ hv, hrlen]
  have h4mem : (4 : Nat) ∈ tallyValues (ranksOf hand) := by
    have hrmem : r ∈ keyRanks :=
      (mem_keyRanks_iff r).mpr (hv r (List.count_pos_iff.mp (by omega)))
    unfold tallyValues
    rw [List.mem_map]
    exact ⟨r, hrmem, hq⟩
  have hst : straightFlag (ranksOf hand) = false :=
    straightFlag_false_of_few_ones _ (by rw [countP_one_of_four_mem _ h4mem hsum]; omega)
  have hf4 : fourFlag (ranksOf hand) = true := fourFlag_true_of_quad _ r hv hq
  have hsel : selectedOf hand = (.fourOfAKind, 800) := by
    unfold selectedOf
    rw [hst, hf4]
    exact selectCategory_four _ _ _ _ _ _
  have hquad : quadKeys (ranksOf hand) = [r] := quadKeys_eq_singleton _ r hv hrlen hq
  have hfinal : rankHandCore pl hand =
      { player := pl, category := .fourOfAKind, score := 800 + 4 * r } := by
    unfold rankHandCore
    rw [hsel]
    simp [tiebreakValue, hquad, kickerCategory]
    omega
  simp only [rankHand, hp, hfinal]

/-- Claim C4 witness: four nines with a five kicker score `800 + 36`. -/
theorem c4_witness :
    rankHand playerQuad =
      .ok { player := playerQuad, category := .fourOfAKind, score := 800 + 4 * 9 } :=
  c4_four_of_a_kind playerQuad exampleQuad 9 rfl (by decide) (by decide)

/-! ### Claim C5: royal flush -/

/-- The tally only depends on the multiset of ranks. -/
theorem tallyValues_perm (rs rs' : List Nat) (h : rs.Perm rs') :
    tallyValues rs = tallyValues rs' := by
  unfold tallyValues
  exact List.map_congr_left (fun k _ => h.count_eq k)

/-- All rank-derived flags only depend on the multiset of ranks. -/
theorem rankFlags_perm (rs rs' : List Nat) (h : rs.Perm rs') :
    fourFlag rs = fourFlag rs' ∧ fullHouseFlag rs = fullHouseFlag rs' ∧
    straightFlag rs = straightFlag rs' ∧
    royalPositionFlag rs = royalPositionFlag rs' ∧
    threeFlag rs = threeFlag rs' ∧ twoPairsFlag rs = twoPairsFlag rs' ∧
    pairFlag rs = pairFlag rs' := by
  have htv := tallyValues_perm rs rs' h
  unfold fourFlag fullHouseFlag straightFlag royalPositionFlag threeFlag
    twoPairsFlag pairFlag firstCardIndex
  rw [htv]
  exact ⟨rfl, rfl, rfl, rfl, rfl, rfl, rfl⟩

/-- A hand whose five cards all share one suit sets the flush flag. -/
theorem flushFlag_of_same_suit (hand : List Card) (s : Suit)
    (hlen : hand.length = 5) (hs : ∀ c ∈ hand, c.suit = s) :
    flushFlag hand = true := by
  have hfull : hand.filter (fun c => decide (c.suit = s)) = hand := by
    rw [List.filter_eq_self]
    intro c hc
    simp [hs c hc]
  unfold flushFlag suitTally
  rw [List.any_eq_true]
  refine ⟨5, ?_, by decide⟩
  rw [List.mem_map]
  refine ⟨s, ?_, by rw [hfull, hlen]⟩
  cases s <;> decide

/-- Claim C5: a one-suited hand whose ranks are exactly 10, 11, 12, 13, 14
is ranked "royal flush" with score `1000 + (10+11+12+13+14) = 1060`. -/
theorem c5_royal_flush (pl : PlayerWithHand) (hand : List Card) (s : Suit)
    (hp : pl.hand = some hand)
    (hperm : (ranksOf hand).Perm [10, 11, 12, 13, 14])
    (hs : ∀ c ∈ hand, c.suit = s) :
    rankHand pl = .ok { player := pl, category := .royalFlush, score := 1060 } := by
  have hlen : hand.length = 5 := by
    have hl := hperm.length_eq
    simpa [ranksOf] using hl
  obtain ⟨hf4, hff, hst, hi8, ht3, htp, hpr⟩ :=
    rankFlags_perm (ranksOf hand) [10, 11, 12, 13, 14] hperm
  have hfl : flushFlag hand = true := flushFlag_of_same_suit hand s hlen hs
  have hsel : selectedOf hand = (.royalFlush, 1000) := by
    unfold selectedOf
    rw [hf4, hff, hst, hi8, ht3, htp, hpr, hfl]
    decide
  have hsum : (ranksOf hand).sum = 60 := by
    rw [hperm.sum_eq]
    decide
  have hfinal : rankHandCore pl hand =
      { player := pl, category := .royalFlush, score := 1060 } := by
    unfold rankHandCore
    rw [hsel]
    simp [tiebreakValue, kickerCategory, hsum]
  simp only [rankHand, hp, hfinal]

/-- Claim C5 witness: the royal flush in hearts. -/
theorem c5_witness :
    rankHand playerRoyal =
      .ok { player := playerRoyal, category := .royalFlush, score := 1060 } :=
  c5_royal_flush playerRoyal exampleRoyal .hearts rfl (by decide) (by decide)

/-! ### Folded maximum -/

theorem foldl_max_mono (l : List Nat) :
    ∀ a a', a ≤ a' →
      l.foldl (fun x c => max x c) a ≤ l.foldl (fun x c => max x c) a' := by
  induction l with
  | nil => exact fun a a' h => h
  | cons x xs ih =>
    intro a a' h
    exact ih (max a x) (max a' x) (max_le_max h le_rfl)

theorem self_le_foldl_max (l : List Nat) :
    ∀ a, a ≤ l.foldl (fun x c => max x c) a := by
  induction l with
  | nil => exact fun a => le_rfl
  | cons x xs ih =>
    intro a
    exact le_trans (le_max_left a x) (ih (max a x))

theorem mem_le_foldl_max (l : List Nat) :
    ∀ a, ∀ x ∈ l, x ≤ l.foldl (fun x c => max x c) a := by
  induction l with
  | nil => intro a x hx; simp at hx
  | cons y ys ih =>
    intro a x hx
    rcases List.mem_cons.mp hx with rfl | hx
    · exact le_trans (le_max_right a x) (self_le_foldl_max ys (max a x))
    · exact ih (max a y) x hx

theorem foldl_max_mem (l : List Nat) :
    ∀ a, l.foldl (fun x c => max x c) a = a ∨ l.foldl (fun x c => max x c) a ∈ l := by
  induction l with
  | nil => exact fun a => Or.inl rfl
  | cons x xs ih =>
    intro a
    simp only [List.foldl_cons]
    rcases ih (max a x) with h | h
    · rcases max_choice a x with hm | hm
      · exact Or.inl (by rw [h, hm])
      · exact Or.inr (by rw [h, hm]; exact List.mem_cons_self x xs)
    · exact Or.inr (List.mem_cons_of_mem x h)

/-! ### Per-category tally facts -/

theorem tallyValues_le_of_count_le (rs : List Nat) (hde : ∀ r ∈ rs, rs.count r ≤ 4) :
    ∀ x ∈ tallyValues rs, x ≤ 4 := by
  intro x hx
  obtain ⟨k, _, rfl⟩ := List.mem_map.mp hx
  by_cases hk : k ∈ rs
  · exact hde k hk
  · rw [List.count_eq_zero.mpr hk]
    omega

theorem countP_one_pos_of_two_twos (l : List Nat) (hsum : l.sum = 5)
    (h2 : l.countP (fun c => c == 2) = 2) : 0 < l.countP (fun c => c == 1) := by
  have hc2 : l.count 2 = 2 := by rw [List.count_eq_countP]; exact h2
  have hmem : 2 ∈ l := List.count_pos_iff.mp (by omega)
  have hp1 := List.perm_cons_erase hmem
  have hsum1 : (l.erase 2).sum = 3 := by
    have hs := hp1.sum_eq
    rw [List.sum_cons] at hs
    omega
  have hc2' : (l.erase 2).count 2 = 1 := by
    rw [List.count_erase_self, hc2]
  have hmem2 : 2 ∈ l.erase 2 := List.count_pos_iff.mp (by omega)
  have hp2 := List.perm_cons_erase hmem2
  have hsum2 : ((l.erase 2).erase 2).sum = 1 := by
    have hs := hp2.sum_eq
    rw [List.sum_cons] at hs
    omega
  have hone := countP_one_eq_one_of_sum_one _ hsum2
  have e1 := List.Perm.countP_eq (fun c => c == 1) hp1
  have e2 := List.Perm.countP_eq (fun c => c == 1) hp2
  rw [List.countP_cons] at e1 e2
  simp at e1 e2
  omega

theorem countP_one_pos_of_zero_one (l : List Nat) (hpos : 0 < l.sum)
    (hsmall : ∀ x ∈ l, x = 0 ∨ x = 1) : 0 < l.countP (fun c => c == 1) := by
  induction l with
  | nil => simp at hpos
  | cons a t ih =>
    rw [List.countP_cons]
    rcases hsmall a (List.mem_cons_self a t) with ha | ha
    · rw [List.sum_cons, ha] at hpos
      have hp := ih (by omega) (fun x hx => hsmall x (List.mem_cons_of_mem a hx))
      omega
    · rw [if_pos (by simp [ha])]
      omega

theorem countP_one_pos_of_pair_tally (l : List Nat) (hsum : l.sum = 5)
    (h2 : l.countP (fun c => c == 2) = 1)
    (hno3 : ∀ x ∈ l, ¬ x = 3) :
    0 < l.countP (fun c => c == 1) := by
  have hc2 : l.count 2 = 1 := by rw [List.count_eq_countP]; exact h2
  have hmem : 2 ∈ l := List.count_pos_iff.mp (by omega)
  have hp1 := List.perm_cons_erase hmem
  have hsum1 : (l.erase 2).sum = 3 := by
    have hs := hp1.sum_eq
    rw [List.sum_cons] at hs
    omega
  have hc2e : (l.erase 2).count 2 = 0 := by
    rw [List.count_erase_self, hc2]
  have hsmall : ∀ x ∈ l.erase 2, x = 0 ∨ x = 1 := by
    intro x hx
    have hxl : x ∈ l := List.mem_of_mem_erase hx
    have hxle : x ≤ 3 :=
      le_trans (List.single_le_sum (fun y _ => Nat.zero_le y) x hx) (le_of_eq hsum1)
    have hx2 : x ≠ 2 := by
      intro h2x
      have hcp : 0 < (l.erase 2).count 2 := List.count_pos_iff.mpr (h2x ▸ hx)
      omega
    have hx3 := hno3 x hxl
    omega
  have hpos := countP_one_pos_of_zero_one (l.erase 2) (by omega) hsmall
  have e1 := List.Perm.countP_eq (fun c => c == 1) hp1
  rw [List.countP_cons] at e1
  simp at e1
  omega

theorem countP_one_pos_of_high_tally (l : List Nat) (hsum : l.sum = 5)
    (hle : ∀ x ∈ l, x ≤ 4)
    (hno2 : l.countP (fun c => c == 2) = 0)
    (hno3 : ∀ x ∈ l, ¬ x = 3) (hno4 : ∀ x ∈ l, ¬ x = 4) :
    0 < l.countP (fun c => c == 1) := by
  have hno2m : ∀ x ∈ l, ¬ x = 2 := by
    intro x hx h2x
    exact (List.countP_eq_zero.mp hno2 x hx) (by simp [h2x])
  have hsmall : ∀ x ∈ l, x = 0 ∨ x = 1 := by
    intro x hx
    have h4 := hle x hx
    have hx2 := hno2m x hx
    have hx3 := hno3 x hx
    have hx4 := hno4 x hx
    omega
  exact countP_one_pos_of_zero_one l (by omega) hsmall

theorem two_mul_countP_two_le_sum (l : List Nat) :
    2 * l.countP (fun c => c == 2) ≤ l.sum := by
  induction l with
  | nil => simp
  | cons a t ih =>
    rw [List.countP_cons, List.sum_cons]
    by_cases ha : a = 2
    · rw [if_pos (by simp [ha])]
      omega
    · rw [if_neg (by simp [ha])]
      omega

theorem twoPairsFlag_eq_countP (rs : List Nat) :
    twoPairsFlag rs = true ↔ (tallyValues rs).countP (fun c => c == 2) = 2 := by
  unfold twoPairsFlag
  rw [List.countP_eq_length_filter]
  simp

theorem pairFlag_eq_countP (rs : List Nat) :
    pairFlag rs = true ↔ (tallyValues rs).countP (fun c => c == 2) = 1 := by
  unfold pairFlag
  rw [List.countP_eq_length_filter]
  simp

theorem threeFlag_false_iff (rs : List Nat) :
    threeFlag rs = false ↔ ∀ x ∈ tallyValues rs, ¬ x = 3 := by
  unfold threeFlag
  rw [List.any_eq_false]
  constructor
  · intro h x hx h3
    exact h x hx (by simp [h3])
  · intro h x hx hb
    simp only [beq_iff_eq] at hb
    exact h x hx hb

theorem fourFlag_false_iff (rs : List Nat) :
    fourFlag rs = false ↔ ∀ x ∈ tallyValues rs, ¬ x = 4 := by
  unfold fourFlag
  rw [List.any_eq_false]
  constructor
  · intro h x hx h4
    exact h x hx (by simp [h4])
  · intro h x hx hb
    simp only [beq_iff_eq] at hb
    exact h x hx hb

theorem singleKeys_ne_nil_of_countP (rs : List Nat)
    (h : 0 < (tallyValues rs).countP (fun c => c == 1)) : singleKeys rs ≠ [] := by
  intro hnil
  unfold singleKeys at hnil
  rw [List.filter_eq_nil_iff] at hnil
  obtain ⟨x, hx, hpx⟩ := List.countP_pos_iff.mp h
  obtain ⟨k, hk, hkx⟩ := List.mem_map.mp hx
  exact hnil k hk (by rw [hkx]; exact hpx)

theorem pairKeys_length_eq (rs : List Nat) :
    (pairKeys rs).length = ((tallyValues rs).filter (fun c => c == 2)).length := by
  unfold pairKeys tallyValues
  rw [List.filter_map, List.length_map]
  rfl

/-! ### Claims C10 and C6 -/

/-- Claim C10: when the selected category is two pairs, pair, or high card,
some rank has tally count exactly 1, so the count-1 key list feeding the
kicker's `Math.max` is nonempty; and for pair, exactly one rank has count 2,
so the tiebreak's `reduce` runs on a singleton.  The hypothesis `hde` is the
spec's tally invariant (each rank occurs 0–4 times in a hand dealt from a
real deck). -/
theorem c10_kicker_well_defined (hand : List Card)
    (hlen : hand.length = 5)
    (hde : ∀ r ∈ ranksOf hand, (ranksOf hand).count r ≤ 4) :
    (((selectedOf hand).1 = .twoPairs ∨ (selectedOf hand).1 = .pair ∨
        (selectedOf hand).1 = .highCard) →
      singleKeys (ranksOf hand) ≠ [] ∧ ∃ r, (ranksOf hand).count r = 1) ∧
    ((selectedOf hand).1 = .pair → (pairKeys (ranksOf hand)).length = 1) := by
  have hv := ranksOf_valid hand
  have hrlen : (ranksOf hand).length = 5 := by simpa [ranksOf] using hlen
  have hsum : (tallyValues (ranksOf hand)).sum = 5 := by rw [tally_sum _ hv, hrlen]
  constructor
  · intro hcase
    have hpos : 0 < (tallyValues (ranksOf hand)).countP (fun c => c == 1) := by
      rcases hcase with hcat | hcat | hcat
      · unfold selectedOf at hcat
        have hinv := selectCategory_twoPairs_inv _ _ _ _ _ _ _ _ hcat
        exact countP_one_pos_of_two_twos _ hsum ((twoPairsFlag_eq_countP _).mp hinv.1)
      · unfold selectedOf at hcat
        have hinv := selectCategory_pair_inv _ _ _ _ _ _ _ _ hcat
        exact countP_one_pos_of_pair_tally _ hsum ((pairFlag_eq_countP _).mp hinv.1)
          ((threeFlag_false_iff _).mp hinv.2.2.2.2.1)
      · unfold selectedOf at hcat
        have hinv := selectCategory_high_inv _ _ _ _ _ _ _ _ hcat
        have h2 : (tallyValues (ranksOf hand)).countP (fun c => c == 2) = 0 := by
          have hb := two_mul_countP_two_le_sum (tallyValues (ranksOf hand))
          have htp : ¬ (tallyValues (ranksOf hand)).countP (fun c => c == 2) = 2 := by
            intro hcp
            have htrue := (twoPairsFlag_eq_countP _).mpr hcp
            rw [hinv.2.2.2.2.1] at htrue
            exact absurd htrue (by decide)
          have hpr : ¬ (tallyValues (ranksOf hand)).countP (fun c => c == 2) = 1 := by
            intro hcp
            have htrue := (pairFlag_eq_countP _).mpr hcp
            rw [hinv.2.2.2.2.2] at htrue
            exact absurd htrue (by decide)
          omega
        exact countP_one_pos_of_high_tally _ hsum
          (tallyValues_le_of_count_le _ hde) h2
          ((threeFlag_false_iff _).mp hinv.2.2.2.1)
          ((fourFlag_false_iff _).mp hinv.1)
    have hne := singleKeys_ne_nil_of_countP _ hpos
    refine ⟨hne, ?_⟩
    obtain ⟨k, hk⟩ := List.exists_mem_of_ne_nil _ hne
    have hkf := List.mem_filter.mp hk
    exact ⟨k, by simpa using hkf.2⟩
  · intro hcat
    unfold selectedOf at hcat
    have hinv := selectCategory_pair_inv _ _ _ _ _ _ _ _ hcat
    rw [pairKeys_length_eq, ← List.countP_eq_length_filter]
    exact (pairFlag_eq_countP _).mp hinv.1

/-- Claim C10 witness: a high-card hand (the wheel hand). -/
theorem c10_witness :
    (((selectedOf exampleWheel).1 = .twoPairs ∨ (selectedOf exampleWheel).1 = .pair ∨
        (selectedOf exampleWheel).1 = .highCard) →
      singleKeys (ranksOf exampleWheel) ≠ [] ∧ ∃ r, (ranksOf exampleWheel).count r = 1) ∧
    ((selectedOf exampleWheel).1 = .pair → (pairKeys (ranksOf exampleWheel)).length = 1) :=
  c10_kicker_well_defined exampleWheel (by decide) (by decide)

theorem pairKeys_eq_singleton (rs : List Nat) (q : Nat)
    (hv : ∀ x ∈ rs, 2 ≤ x ∧ x ≤ 14)
    (hq : rs.count q = 2) (hone : (pairKeys rs).length = 1) :
    pairKeys rs = [q] := by
  obtain ⟨a, ha⟩ := List.length_eq_one.mp hone
  have hqmem : q ∈ pairKeys rs := by
    unfold pairKeys
    rw [List.mem_filter]
    exact ⟨(mem_keyRanks_iff q).mpr (hv q (List.count_pos_iff.mp (by omega))),
      by simp [hq]⟩
  rw [ha] at hqmem ⊢
  have hqa : q = a := by simpa using hqmem
  rw [hqa]

/-- The kicker is the maximum rank among the count-1 ranks: it itself has
count 1, and it dominates every count-1 rank. -/
theorem kickerValue_spec (rs : List Nat) (hv : ∀ x ∈ rs, 2 ≤ x ∧ x ≤ 14)
    (hne : singleKeys rs ≠ []) :
    rs.count (kickerValue rs) = 1 ∧ ∀ j, rs.count j = 1 → j ≤ kickerValue rs := by
  have hmem : kickerValue rs ∈ singleKeys rs := by
    rcases foldl_max_mem (singleKeys rs) 0 with h0 | hm
    · obtain ⟨k, hk⟩ := List.exists_mem_of_ne_nil _ hne
      have hkey := (List.mem_filter.mp hk).1
      have hk2 : 2 ≤ k := ((mem_keyRanks_iff k).mp hkey).1
      have hle := mem_le_foldl_max (singleKeys rs) 0 k hk
      have hkv : kickerValue rs = (singleKeys rs).foldl (fun x c => max x c) 0 := rfl
      omega
    · exact hm
  constructor
  · have hks := (List.mem_filter.mp hmem).2
    simpa using hks
  · intro j hj
    have hjmem : j ∈ singleKeys rs := by
      unfold singleKeys
      rw [List.mem_filter]
      exact ⟨(mem_keyRanks_iff j).mpr (hv j (List.count_pos_iff.mp (by omega))),
        by simp [hj]⟩
    exact mem_le_foldl_max (singleKeys rs) 0 j hjmem

/-- Claim C6: a hand whose selected category is pair, with pair rank `q`,
scores `200 + 2·q` plus the kicker, the maximum rank among count-1 ranks;
in particular the two worked-example hands score 217 and 219. -/
theorem c6_pair_score (pl : PlayerWithHand) (hand : List Card) (q : Nat)
    (hp : pl.hand = some hand) (hlen : hand.length = 5)
    (hcat : (rankHandCore pl hand).category = .pair)
    (hq : (ranksOf hand).count q = 2) :
    (∃ k, (rankHandCore pl hand).score = 200 + 2 * q + k ∧
        (ranksOf hand).count k = 1 ∧
        ∀ j, (ranksOf hand).count j = 1 → j ≤ k) ∧
    rankHand pl = .ok (rankHandCore pl hand) ∧
    (rankHandCore playerA exampleHand1).category = .pair ∧
    (rankHandCore playerA exampleHand1).score = 217 ∧
    (rankHandCore playerB exampleHand2).category = .pair ∧
    (rankHandCore playerB exampleHand2).score = 219 := by
  have hv := ranksOf_valid hand
  have hrlen : (ranksOf hand).length = 5 := by simpa [ranksOf] using hlen
  have hsum : (tallyValues (ranksOf hand)).sum = 5 := by rw [tally_sum _ hv, hrlen]
  have hcat' : (selectedOf hand).1 = .pair := hcat
  have hcatu : (selectedOf hand).1 = .pair := hcat'
  unfold selectedOf at hcatu
  have hinv := selectCategory_pair_inv _ _ _ _ _ _ _ _ hcatu
  have hone : (pairKeys (ranksOf hand)).length = 1 := by
    rw [pairKeys_length_eq, ← List.countP_eq_length_filter]
    exact (pairFlag_eq_countP _).mp hinv.1
  have hpk : pairKeys (ranksOf hand) = [q] := pairKeys_eq_singleton _ q hv hq hone
  have hbase : (selectedOf hand).2 = 200 := hinv.2.2.2.2.2.2
  have hnes : singleKeys (ranksOf hand) ≠ [] := by
    apply singleKeys_ne_nil_of_countP
    exact countP_one_pos_of_pair_tally _ hsum ((pairFlag_eq_countP _).mp hinv.1)
      ((threeFlag_false_iff _).mp hinv.2.2.2.2.1)
  obtain ⟨hkc, hkmax⟩ := kickerValue_spec (ranksOf hand) hv hnes
  have hscore : (rankHandCore pl hand).score =
      200 + 2 * q + kickerValue (ranksOf hand) := by
    show (selectedOf hand).2 + tiebreakValue (ranksOf hand) (selectedOf hand).1 +
      (if kickerCategory (selectedOf hand).1 then kickerValue (ranksOf hand) else 0) = _
    rw [hcat', hbase]
    simp [tiebreakValue, hpk, kickerCategory, parseJoin]
    omega
  exact ⟨⟨kickerValue (ranksOf hand), hscore, hkc, hkmax⟩, by simp [rankHand, hp],
    by decide, by decide, by decide, by decide⟩

/-- Claim C6 witness: Hand1 (pair of fours, kicker 9). -/
theorem c6_witness :
    (∃ k, (rankHandCore playerA exampleHand1).score = 200 + 2 * 4 + k ∧
        (ranksOf exampleHand1).count k = 1 ∧
        ∀ j, (ranksOf exampleHand1).count j = 1 → j ≤ k) ∧
    rankHand playerA = .ok (rankHandCore playerA exampleHand1) ∧
    (rankHandCore playerA exampleHand1).category = .pair ∧
    (rankHandCore playerA exampleHand1).score = 217 ∧
    (rankHandCore playerB exampleHand2).category = .pair ∧
    (rankHandCore playerB exampleHand2).score = 219 :=
  c6_pair_score playerA exampleHand1 4 rfl (by decide) (by decide) (by decide)

/-! ### Claim C7: the straight characterization -/

theorem tallyValues_length (rs : List Nat) : (tallyValues rs).length = 13 := by
  unfold tallyValues keyRanks
  simp

theorem tallyValues_getElem (rs : List Nat) (i : Nat)
    (h : i < (tallyValues rs).length) :
    (tallyValues rs)[i] = rs.count (i + 2) := by
  unfold tallyValues keyRanks at *
  simp

theorem straight_code_to_spec (rs : List Nat)
    (hflag : straightFlag rs = true) : specStraight rs := by
  cases hf : firstCardIndex rs with
  | none => simp [straightFlag, hf] at hflag
  | some i =>
    simp only [straightFlag, hf, beq_iff_eq] at hflag
    unfold firstCardIndex at hf
    rw [List.findIdx?_eq_some_iff_getElem] at hf
    obtain ⟨hilen, hpi, hmin⟩ := hf
    rw [tallyValues_length] at hilen
    have hwlen : (((tallyValues rs).drop i).take 5).length = min 5 (13 - i) := by
      rw [List.length_take, List.length_drop, tallyValues_length]
    have hcle : (((tallyValues rs).drop i).take 5).countP (fun c => c == 1) ≤
        (((tallyValues rs).drop i).take 5).length := List.countP_le_length _
    have hi8 : i ≤ 8 := by omega
    have hall : ∀ x ∈ ((tallyValues rs).drop i).take 5, (x == 1) = true :=
      List.countP_eq_length.mp (by omega)
    have hwin : ∀ j, j ≤ 4 → rs.count (i + 2 + j) = 1 := by
      intro j hj
      have hjlt : j < (((tallyValues rs).drop i).take 5).length := by omega
      have h1 := hall _ (List.get_mem _ j hjlt)
      simp only [List.get_eq_getElem, List.getElem_take, List.getElem_drop,
        tallyValues_getElem, beq_iff_eq] at h1
      rw [show i + 2 + j = i + j + 2 by omega]
      exact h1
    refine ⟨i + 2, by omega, by omega, ?_, ?_⟩
    · intro b hb1 hb2 hbc
      have hji : b - 2 < i := by omega
      have hm := hmin (b - 2) hji
      simp only [tallyValues_getElem, beq_iff_eq] at hm
      rw [show b - 2 + 2 = b by omega] at hm
      exact hm hbc
    · exact hwin

theorem straight_spec_to_code (rs : List Nat)
    (hv : ∀ x ∈ rs, 2 ≤ x ∧ x ≤ 14)
    (hs : specStraight rs) : straightFlag rs = true := by
  obtain ⟨a, ha2, _, hminim, hrun⟩ := hs
  have ha0 : rs.count a = 1 := by
    have h0 := hrun 0 (by omega)
    simpa using h0
  have ha4 : a + 4 ≤ 14 :=
    (hv (a + 4) (List.count_pos_iff.mp (by rw [hrun 4 (by omega)]; omega))).2
  have hfi : firstCardIndex rs = some (a - 2) := by
    unfold firstCardIndex
    rw [List.findIdx?_eq_some_iff_getElem]
    refine ⟨by rw [tallyValues_length]; omega, ?_, ?_⟩
    · simp only [tallyValues_getElem, beq_iff_eq]
      rw [show a - 2 + 2 = a by omega]
      exact ha0
    · intro j hj
      simp only [tallyValues_getElem, beq_iff_eq]
      exact hminim (j + 2) (by omega) (by omega)
  have hwlen : (((tallyValues rs).drop (a - 2)).take 5).length = 5 := by
    rw [List.length_take, List.length_drop, tallyValues_length]
    omega
  have hall : ∀ x ∈ ((tallyValues rs).drop (a - 2)).take 5, (x == 1) = true := by
    intro x hx
    obtain ⟨⟨j, hjl⟩, hget⟩ := List.mem_iff_get.mp hx
    rw [← hget]
    simp only [List.get_eq_getElem, List.getElem_take, List.getElem_drop,
      tallyValues_getElem, beq_iff_eq]
    rw [show a - 2 + j + 2 = a + j by omega]
    exact hrun j (by rw [hwlen] at hjl; omega)
  simp only [straightFlag, hfi, beq_iff_eq]
  rw [List.countP_eq_length.mpr hall, hwlen]

theorem selectCategory_no_straight (f4 ff fl t3 tp pr i8 : Bool) :
    (selectCategory f4 ff fl false t3 tp pr i8).1 ≠ .straight := by
  cases f4 <;> cases ff <;> cases fl <;> cases t3 <;> cases tp <;> cases pr <;>
    cases i8 <;> decide

/-- Claim C7: the straight flag holds exactly when the five consecutive ranks
from the lowest count-1 rank (the anchor) upward each have tally count 1; in
particular a hand with ranks 14, 2, 3, 4, 5 has no recognized straight (no
wrap-around), and such a hand is never categorized as a straight. -/
theorem c7_straight_iff (hand : List Card) :
    (straightFlag (ranksOf hand) = true ↔ specStraight (ranksOf hand)) ∧
    (∀ rs : List Nat, rs.Perm [14, 2, 3, 4, 5] → straightFlag rs = false) ∧
    ((ranksOf hand).Perm [14, 2, 3, 4, 5] → (selectedOf hand).1 ≠ .straight) := by
  have hwheel : ∀ rs : List Nat, rs.Perm [14, 2, 3, 4, 5] → straightFlag rs = false := by
    intro rs hperm
    rw [(rankFlags_perm rs [14, 2, 3, 4, 5] hperm).2.2.1]
    decide
  refine ⟨⟨straight_code_to_spec (ranksOf hand),
    straight_spec_to_code (ranksOf hand) (ranksOf_valid hand)⟩, hwheel, ?_⟩
  intro hperm
  unfold selectedOf
  rw [hwheel (ranksOf hand) hperm]
  exact selectCategory_no_straight _ _ _ _ _ _ _

/-- Claim C7 witness: the wheel hand itself. -/
theorem c7_witness :
    (straightFlag (ranksOf exampleWheel) = true ↔ specStraight (ranksOf exampleWheel)) ∧
    (∀ rs : List Nat, rs.Perm [14, 2, 3, 4, 5] → straightFlag rs = false) ∧
    ((ranksOf exampleWheel).Perm [14, 2, 3, 4, 5] →
      (selectedOf exampleWheel).1 ≠ .straight) :=
  c7_straight_iff exampleWheel

/-! ### Claim C9: the in-hand score is bounded by 1060 < 10000 -/

theorem sum_le_of_all_le (l : List Nat) (b : Nat) (h : ∀ x ∈ l, x ≤ b) :
    l.sum ≤ b * l.length := by
  induction l with
  | nil => simp
  | cons x xs ih =>
    rw [List.sum_cons, List.length_cons]
    have hx := h x (List.mem_cons_self x xs)
    have hxs := ih (fun y hy => h y (List.mem_cons_of_mem x hy))
    calc x + xs.sum ≤ b + b * xs.length := by omega
    _ = b * (xs.length + 1) := by ring

theorem foldl_max_le (l : List Nat) (b : Nat) :
    ∀ a, a ≤ b → (∀ x ∈ l, x ≤ b) → l.foldl (fun x c => max x c) a ≤ b := by
  induction l with
  | nil => exact fun a ha _ => ha
  | cons x xs ih =>
    intro a ha hx
    simp only [List.foldl_cons]
    exact ih (max a x) (max_le ha (hx x (List.mem_cons_self x xs)))
      (fun y hy => hx y (List.mem_cons_of_mem x hy))

theorem kickerValue_le (rs : List Nat) : kickerValue rs ≤ 14 := by
  have hb : ∀ x ∈ singleKeys rs, x ≤ 14 := fun x hx =>
    ((mem_keyRanks_iff x).mp (List.mem_of_mem_filter hx)).2
  exact foldl_max_le (singleKeys rs) 14 0 (by omega) hb

theorem filter_keyRanks_headD_le (p : Nat → Bool) :
    (keyRanks.filter p).headD 0 ≤ 14 := by
  cases hf : keyRanks.filter p with
  | nil => simp
  | cons a t =>
    have ha : a ∈ keyRanks :=
      List.mem_of_mem_filter (by rw [hf]; exact List.mem_cons_self a t)
    have hb := (mem_keyRanks_iff a).mp ha
    simp only [List.headD_cons]
    omega

theorem filter_keyRanks_getD_le (p : Nat → Bool) (i : Nat) :
    (keyRanks.filter p).getD i 0 ≤ 14 := by
  rw [List.getD_eq_getElem?_getD]
  cases hf : (keyRanks.filter p)[i]? with
  | none => simp
  | some x =>
    have hx : x ∈ keyRanks.filter p := List.getElem?_mem hf
    have hb := (mem_keyRanks_iff x).mp (List.mem_of_mem_filter hx)
    simp only [Option.getD_some]
    omega

theorem tallyValues_explicit (rs : List Nat) :
    tallyValues rs = [rs.count 2, rs.count 3, rs.count 4, rs.count 5,
      rs.count 6, rs.count 7, rs.count 8, rs.count 9, rs.count 10,
      rs.count 11, rs.count 12, rs.count 13, rs.count 14] := by
  unfold tallyValues
  rw [keyRanks_eq]
  rfl

/-- A royal-flush-flagged hand has exactly ranks 10–14 once each, so the
ranks sum to 60. -/
theorem royal_sum_sixty (rs : List Nat) (hv : ∀ x ∈ rs, 2 ≤ x ∧ x ≤ 14)
    (hlen : rs.length = 5)
    (hst : straightFlag rs = true) (hi8 : royalPositionFlag rs = true) :
    rs.sum = 60 := by
  have hfi : firstCardIndex rs = some 8 := by
    unfold royalPositionFlag at hi8
    simpa using hi8
  simp only [straightFlag, hfi, beq_iff_eq] at hst
  have hwlen : (((tallyValues rs).drop 8).take 5).length = 5 := by
    rw [List.length_take, List.length_drop, tallyValues_length]
    omega
  have hall : ∀ x ∈ ((tallyValues rs).drop 8).take 5, (x == 1) = true :=
    List.countP_eq_length.mp (by rw [hwlen]; exact hst)
  have hwin : ∀ j, j ≤ 4 → rs.count (10 + j) = 1 := by
    intro j hj
    have hjlt : j < (((tallyValues rs).drop 8).take 5).length := by omega
    have h1 := hall _ (List.get_mem _ j hjlt)
    simp only [List.get_eq_getElem, List.getElem_take, List.getElem_drop,
      tallyValues_getElem, beq_iff_eq] at h1
    rw [show 10 + j = 8 + j + 2 by omega]
    exact h1
  have h10 := hwin 0 (by omega)
  have h11 := hwin 1 (by omega)
  have h12 := hwin 2 (by omega)
  have h13 := hwin 3 (by omega)
  have h14 := hwin 4 (by omega)
  norm_num at h10 h11 h12 h13 h14
  have hsum := tally_sum rs hv
  rw [hlen, tallyValues_explicit] at hsum
  simp only [List.sum_cons, List.sum_nil] at hsum
  have hwsum := tally_weighted_sum rs hv
  rw [keyRanks_eq] at hwsum
  simp only [List.map_cons, List.map_nil, List.sum_cons, List.sum_nil] at hwsum
  omega

/-- Claim C9: every evaluated 5-card hand scores at most 1060 (attained by the
royal flush), hence strictly below the fold sentinel 10000, so a
"win via fold" result always outranks every evaluated hand. -/
theorem c9_score_below_sentinel (pl : PlayerWithHand) (hand : List Card)
    (hp : pl.hand = some hand) (hlen : hand.length = 5) :
    (rankHandCore pl hand).score ≤ 1060 ∧
    (rankHandCore pl hand).score < 10000 ∧
    rankHand pl = .ok (rankHandCore pl hand) ∧
    (rankHandCore playerRoyal exampleRoyal).score = 1060 := by
  have hv := ranksOf_valid hand
  have hrlen : (ranksOf hand).length = 5 := by simpa [ranksOf] using hlen
  have hsum70 : (ranksOf hand).sum ≤ 70 := by
    have hs := sum_le_of_all_le (ranksOf hand) 14 (fun x hx => (hv x hx).2)
    rw [hrlen] at hs
    omega
  have hkick : kickerValue (ranksOf hand) ≤ 14 := kickerValue_le _
  have hle : (rankHandCore pl hand).score ≤ 1060 := by
    have hsc : (rankHandCore pl hand).score =
        (selectedOf hand).2 + tiebreakValue (ranksOf hand) (selectedOf hand).1 +
        (if kickerCategory (selectedOf hand).1 then kickerValue (ranksOf hand) else 0) := rfl
    have hb : (selectedOf hand).2 =
        1000 - 100 * categoryIndex (selectedOf hand).1 :=
      (selectCategory_base _ _ _ _ _ _ _ _).2.2.1
    have hnf : (selectedOf hand).1 ≠ .winViaFold :=
      (selectCategory_base _ _ _ _ _ _ _ _).1
    cases hcat : (selectedOf hand).1 with
    | royalFlush =>
      rw [hcat] at hb
      norm_num [categoryIndex] at hb
      have hcatu : (selectedOf hand).1 = .royalFlush := hcat
      unfold selectedOf at hcatu
      have hinv := selectCategory_royal_inv _ _ _ _ _ _ _ _ hcatu
      have h60 := royal_sum_sixty (ranksOf hand) hv hrlen hinv.2.1 hinv.2.2.1
      rw [hsc, hcat]
      simp [tiebreakValue, kickerCategory]
      omega
    | straightFlush =>
      rw [hcat] at hb
      norm_num [categoryIndex] at hb
      rw [hsc, hcat]
      simp [tiebreakValue, kickerCategory]
      omega
    | fourOfAKind =>
      rw [hcat] at hb
      norm_num [categoryIndex] at hb
      have hq : (quadKeys (ranksOf hand)).headD 0 ≤ 14 := filter_keyRanks_headD_le _
      simp only [List.headD_eq_head?_getD] at hq
      rw [hsc, hcat]
      simp [tiebreakValue, kickerCategory]
      omega
    | fullHouse =>
      rw [hcat] at hb
      norm_num [categoryIndex] at hb
      rw [hsc, hcat]
      simp [tiebreakValue, kickerCategory]
      omega
    | flush =>
      rw [hcat] at hb
      norm_num [categoryIndex] at hb
      rw [hsc, hcat]
      simp [tiebreakValue, kickerCategory]
      omega
    | straight =>
      rw [hcat] at hb
      norm_num [categoryIndex] at hb
      rw [hsc, hcat]
      simp [tiebreakValue, kickerCategory]
      omega
    | threeOfAKind =>
      rw [hcat] at hb
      norm_num [categoryIndex] at hb
      have hq : (tripleKeys (ranksOf hand)).headD 0 ≤ 14 := filter_keyRanks_headD_le _
      simp only [List.headD_eq_head?_getD] at hq
      rw [hsc, hcat]
      simp [tiebreakValue, kickerCategory]
      omega
    | twoPairs =>
      rw [hcat] at hb
      norm_num [categoryIndex] at hb
      have hq0 : (pairKeys (ranksOf hand)).getD 0 0 ≤ 14 := filter_keyRanks_getD_le _ 0
      have hq1 : (pairKeys (ranksOf hand)).getD 1 0 ≤ 14 := filter_keyRanks_getD_le _ 1
      simp only [List.getD_eq_getElem?_getD] at hq0 hq1
      rw [hsc, hcat]
      simp [tiebreakValue, kickerCategory]
      omega
    | pair =>
      rw [hcat] at hb
      norm_num [categoryIndex] at hb
      have hcatu : (selectedOf hand).1 = .pair := hcat
      unfold selectedOf at hcatu
      have hinv := selectCategory_pair_inv _ _ _ _ _ _ _ _ hcatu
      have hone : (pairKeys (ranksOf hand)).length = 1 := by
        rw [pairKeys_length_eq, ← List.countP_eq_length_filter]
        exact (pairFlag_eq_countP _).mp hinv.1
      obtain ⟨a, ha⟩ := List.length_eq_one.mp hone
      have hamem : a ∈ keyRanks := by
        have : a ∈ pairKeys (ranksOf hand) := by
          rw [ha]
          exact List.mem_cons_self a []
        exact List.mem_of_mem_filter this
      have ha14 := ((mem_keyRanks_iff a).mp hamem).2
      rw [hsc, hcat]
      simp [tiebreakValue, kickerCategory, ha, parseJoin]
      omega
    | highCard =>
      rw [hcat] at hb
      norm_num [categoryIndex] at hb
      rw [hsc, hcat]
      simp [tiebreakValue, kickerCategory]
      omega
    | winViaFold => exact absurd hcat hnf
  exact ⟨hle, by omega, by simp [rankHand, hp], by decide⟩

/-- Claim C9 witness: the royal flush player. -/
theorem c9_witness :
    (rankHandCore playerRoyal exampleRoyal).score ≤ 1060 ∧
    (rankHandCore playerRoyal exampleRoyal).score < 10000 ∧
    rankHand playerRoyal = .ok (rankHandCore playerRoyal exampleRoyal) ∧
    (rankHandCore playerRoyal exampleRoyal).score = 1060 :=
  c9_score_below_sentinel playerRoyal exampleRoyal rfl (by decide)
